import Mathlib

/-!
Verification of the interval-tree-clock core of the `clock` repository
(`src/interval_tree_clock.rs`), as a shallow embedding.

Conventions of the embedding:
- `u32` values are modeled as `Nat`.  None of the verified properties concern
  addition overflow, so additions are the mathematical ones; subtraction,
  which the source performs with `-` on `u32` (a panic on underflow in debug
  builds), is modeled as a guarded subtraction returning `none` on underflow.
- Rust panics (`assert_ne!`, `unreachable!`, underflowing `-`) are modeled by
  `Option`: a function that can panic returns `none` exactly on the inputs on
  which the Rust code panics.
- `Rc` sharing is immaterial to the values computed and is dropped; the trees
  are plain inductive values, and Rust's derived/manual `PartialEq` on them is
  structural equality, i.e. `DecidableEq`.

Everything is placed in namespace `ITC` because the identity tree in the
source is called `Id`, which clashes with a core Lean name.
-/

namespace ITC

/-- The identity tree `Id` of the source: ownership of sub-intervals of [0,1). -/
inductive Id where
  | Empty : Id
  | Full : Id
  | Split : Id → Id → Id
deriving DecidableEq

/-- The event tree `Event` of the source: logical time over sub-intervals of [0,1). -/
inductive Event where
  | N : Nat → Event
  | Split : Nat → Event → Event → Event
deriving DecidableEq

/-- `Id::split`. -/
def Id.split : Id → Id × Id
  | .Empty => (.Empty, .Empty)
  | .Full => (.Split .Full .Empty, .Split .Empty .Full)
  | .Split l r =>
    if l = .Empty then
      let p := r.split
      (.Split .Empty p.1, .Split .Empty p.2)
    else if r = .Empty then
      let p := l.split
      (.Split p.1 .Empty, .Split p.2 .Empty)
    else
      (.Split l .Empty, .Split .Empty r)

/-- `Id::norm`. -/
def Id.norm : Id → Id
  | .Split .Empty .Empty => .Empty
  | .Split .Full .Full => .Full
  | i => i

/-- `Id::sum`.  The `unreachable!()` arm (two `Full`s, or `Full` against
`Split`) is modeled as `none`. -/
def Id.sum : Id → Id → Option Id
  | .Empty, i => some i
  | i, .Empty => some i
  | .Split l1 r1, .Split l2 r2 => do
    let l ← l1.sum l2
    let r ← r1.sum r2
    some ((Id.Split l r).norm)
  | _, _ => none

/-- `Event::split_from`. -/
def Event.split_from (n : Nat) : Event :=
  .Split n (.N 0) (.N 0)

/-- `Event::min`. -/
def Event.min : Event → Nat
  | .N n => n
  | .Split n e1 e2 => n + Nat.min e1.min e2.min

/-- `Event::max`. -/
def Event.max : Event → Nat
  | .N n => n
  | .Split n e1 e2 => n + Nat.max e1.max e2.max

/-- `Event::lift`. -/
def Event.lift : Event → Nat → Event
  | .N n, m => .N (n + m)
  | .Split n e1 e2, m => .Split (n + m) e1 e2

/-- `Event::sink`.  The source subtracts on `u32`, which panics on underflow
(in debug builds); this is the `none` case. -/
def Event.sink : Event → Nat → Option Event
  | .N n, m => if m ≤ n then some (.N (n - m)) else none
  | .Split n e1 e2, m => if m ≤ n then some (.Split (n - m) e1 e2) else none

/-- The sink-and-refactor part of `Event::norm`, reached when the two children
are not equal uniform values: `m = min(min(e1), min(e2))`, the base absorbs
`m` and both children are sunk by `m`. -/
def Event.normSink (n : Nat) (e1 e2 : Event) : Option Event := do
  let m := Nat.min e1.min e2.min
  let s1 ← e1.sink m
  let s2 ← e2.sink m
  some (Event.Split (n + m) s1 s2)

/-- `Event::norm`: collapse `Split(n, N m, N m)` to `N (n+m)`, otherwise
factor the shared minimum of the children into the base. -/
def Event.norm : Event → Option Event
  | .N n => some (.N n)
  | .Split n (.N m1) (.N m2) =>
    if m1 = m2 then some (.N (n + m1)) else Event.normSink n (.N m1) (.N m2)
  | .Split n e1 e2 => Event.normSink n e1 e2

/-- Structural node count of an event tree, used as the termination measure
(the derived `sizeOf` also counts the numeric payloads, which `lift` changes). -/
def Event.nodes : Event → Nat
  | .N _ => 1
  | .Split _ l r => 1 + l.nodes + r.nodes

theorem Event.nodes_lift (e : Event) (m : Nat) : (e.lift m).nodes = e.nodes := by
  cases e <;> rfl

/-- `Event::join`.  The source's `(N, Split)` and `(Split, N)` cases first
expand the uniform side with `split_from` and the `n1 > n2` case swaps the
arguments; both steps are unfolded one recursion level here (they change
neither the result nor the recursive calls) so that the recursion decreases
the combined tree size. -/
def Event.join : Event → Event → Option Event
  | .N n1, .N n2 => some (.N (if n1 > n2 then n1 else n2))
  | .N n1, .Split n2 l2 r2 =>
    if n1 > n2 then
      let n := n1 - n2
      do
        let left ← l2.join ((Event.N 0).lift n)
        let right ← r2.join ((Event.N 0).lift n)
        (Event.Split n2 left right).norm
    else
      let n := n2 - n1
      do
        let left ← (Event.N 0).join (l2.lift n)
        let right ← (Event.N 0).join (r2.lift n)
        (Event.Split n1 left right).norm
  | .Split n1 l1 r1, .N n2 =>
    if n1 > n2 then
      let n := n1 - n2
      do
        let left ← (Event.N 0).join (l1.lift n)
        let right ← (Event.N 0).join (r1.lift n)
        (Event.Split n2 left right).norm
    else
      let n := n2 - n1
      do
        let left ← l1.join ((Event.N 0).lift n)
        let right ← r1.join ((Event.N 0).lift n)
        (Event.Split n1 left right).norm
  | .Split n1 l1 r1, .Split n2 l2 r2 =>
    if n1 > n2 then
      let n := n1 - n2
      do
        let left ← l2.join (l1.lift n)
        let right ← r2.join (r1.lift n)
        (Event.Split n2 left right).norm
    else
      let n := n2 - n1
      do
        let left ← l1.join (l2.lift n)
        let right ← r1.join (r2.lift n)
        (Event.Split n1 left right).norm
termination_by e1 e2 => e1.nodes + e2.nodes
decreasing_by
  all_goals simp [Event.nodes_lift, Event.nodes]
  all_goals omega

/-- `Event::leq`. -/
def Event.leq : Event → Event → Bool
  | .N n1, .N n2 => decide (n1 ≤ n2)
  | .N n1, .Split n2 _ _ => decide (n1 ≤ n2)
  | .Split n1 l1 r1, .N n2 =>
    decide (n1 ≤ n2) && (l1.lift n1).leq (.N n2) && (r1.lift n1).leq (.N n2)
  | .Split n1 l1 r1, .Split n2 l2 r2 =>
    decide (n1 ≤ n2) && (l1.lift n1).leq (l2.lift n2) && (r1.lift n1).leq (r2.lift n2)
termination_by e1 e2 => e1.nodes + e2.nodes
decreasing_by
  all_goals simp [Event.nodes_lift, Event.nodes]
  all_goals omega

/-- The `Stamp` pair. -/
structure Stamp where
  id : Id
  event : Event
deriving DecidableEq

/-- `Stamp::seed`: `(Full, N 0)`. -/
def Stamp.seed : Stamp :=
  ⟨.Full, .N 0⟩

/-- `Stamp::fork`. -/
def Stamp.fork (s : Stamp) : Stamp × Stamp :=
  let p := s.id.split
  (⟨p.1, s.event⟩, ⟨p.2, s.event⟩)

/-- `Stamp::peek`. -/
def Stamp.peek (s : Stamp) : Stamp :=
  ⟨.Empty, s.event⟩

/-- `Stamp::join`. -/
def Stamp.join (s other : Stamp) : Option Stamp := do
  let i ← s.id.sum other.id
  let e ← s.event.join other.event
  some ⟨i, e⟩

/-- `Stamp::leq`. -/
def Stamp.leq (s other : Stamp) : Bool :=
  s.event.leq other.event

/-- The inner `fill` function of `Stamp::event`, on the stamp's two
components.  It can only fail through `Event::norm`'s sinking subtraction. -/
def fill : Id → Event → Option Event
  | .Empty, e => some e
  | .Full, e => some (.N e.max)
  | .Split _ _, .N n => some (.N n)
  | .Split il ir, .Split n l r =>
    if il = .Full then do
      let er ← fill ir r
      (Event.Split n (.N (Nat.max l.max er.min)) er).norm
    else if ir = .Full then do
      let el ← fill il l
      (Event.Split n el (.N (Nat.max r.max el.min))).norm
    else do
      let el ← fill il l
      let er ← fill ir r
      (Event.Split n el er).norm

/-- The constant `GREATER_THAN_MAX_TREE_DEPTH` of the inner `grow`. -/
def GREATER_THAN_MAX_TREE_DEPTH : Nat := 1000

/-- The inner `grow` function of `Stamp::event`, returning the new event tree
and its cost.  The two `unreachable!` arms — `Full` ownership against a
`Split` event, and `Empty` ownership (reachable only through the uniform-leaf
expansion arm) — are `none`. -/
def grow : Id → Event → Option (Event × Nat)
  | .Full, .N n => some (.N (n + 1), 0)
  | i, .N n =>
    (grow i (Event.split_from n)).map fun ec => (ec.1, ec.2 + GREATER_THAN_MAX_TREE_DEPTH)
  | .Split il ir, .Split n l r =>
    if il = .Empty then
      (grow ir r).map fun ec => (Event.Split n l ec.1, ec.2 + 1)
    else if ir = .Empty then
      (grow il l).map fun ec => (Event.Split n ec.1 r, ec.2 + 1)
    else do
      let cl ← grow il l
      let cr ← grow ir r
      if cl.2 < cr.2 then some (Event.Split n cl.1 r, cl.2 + 1)
      else some (Event.Split n l cr.1, cr.2 + 1)
  | .Full, .Split _ _ _ => none
  | .Empty, .Split _ _ _ => none
termination_by i e => 2 * sizeOf i + (match e with | .N _ => 1 | _ => 0)
decreasing_by
  all_goals simp [Event.split_from]
  all_goals try split
  all_goals try simp
  all_goals omega

/-- `Stamp::event`.  The `assert_ne!(self.id, Id::Empty)` is the `none` guard.
Note the source keeps the *unchanged* tree when `fill` returns the event
unchanged and calls `grow` otherwise; this (inverted relative to the paper's
`event`) branch is reproduced faithfully. -/
def Stamp.event' (s : Stamp) : Option Stamp :=
  if s.id = .Empty then none
  else do
    let filled ← fill s.id s.event
    if filled = s.event then some ⟨s.id, filled⟩
    else do
      let g ← grow s.id s.event
      some ⟨s.id, g.1⟩

/-- `IntervalTreeClock::receive` (through the `LamportClock` impl): join the
incoming stamp, then unconditionally apply `event`. -/
def IntervalTreeClock.receive (s incoming : Stamp) : Option Stamp := do
  let j ← s.join incoming
  j.event'

/-- The `PartialOrd for IntervalTreeClock` comparison (`IntervalTreeClock` is
a `repr(transparent)` wrapper around `Stamp`). -/
def IntervalTreeClock.cmp (a b : Stamp) : Option Ordering :=
  match a.leq b, b.leq a with
  | true, true => some .eq
  | true, false => some .lt
  | false, true => some .gt
  | false, false => none

/-- The `PartialEq for IntervalTreeClock` equality. -/
def IntervalTreeClock.eq (a b : Stamp) : Bool :=
  a.leq b && b.leq a

/-!
Semantic layer.  An event tree denotes a function from [0,1) to ℕ.  A point of
[0,1) is represented by its infinite binary expansion, a stream `Nat → Bool`
(`false` selects the left half).  `Event.eval` is the denotation, and the
normal-form predicates capture the representation invariant the source's
`norm` functions establish (spec §3: a `Split` whose children are the same
uniform value collapses, and children share no positive minimum).
-/

/-- Both children are the same uniform value (the collapse condition of
`Event::norm`). -/
def Event.bothEqN : Event → Event → Bool
  | .N a, .N b => decide (a = b)
  | _, _ => false

/-- Full normal form of an event tree: recursively, no `Split` has two equal
uniform children, and the children of every `Split` have minimum 0. -/
def Event.normalb : Event → Bool
  | .N _ => true
  | .Split _ l r =>
    l.normalb && r.normalb && decide (Nat.min l.min r.min = 0) && !(Event.bothEqN l r)

/-- Full normal form of an identity tree: no `Split` has two `Empty` or two
`Full` children. -/
def Id.normalb : Id → Bool
  | .Empty => true
  | .Full => true
  | .Split l r =>
    l.normalb && r.normalb
      && !(decide (l = Id.Empty) && decide (r = Id.Empty))
      && !(decide (l = Id.Full) && decide (r = Id.Full))

/-- Drop the first binary digit of a point. -/
def tl (p : Nat → Bool) : Nat → Bool :=
  fun i => p (i + 1)

/-- Prepend a binary digit to a point. -/
def pcons (b : Bool) (p : Nat → Bool) : Nat → Bool
  | 0 => b
  | i + 1 => p i

/-- The function over [0,1) an event tree encodes, at the point whose binary
expansion is `p` (`false` = left half).  A `Split` adds its base value to the
relative value of the child the first digit selects. -/
def Event.eval : Event → (Nat → Bool) → Nat
  | .N n, _ => n
  | .Split n l r, p => n + (if p 0 then r.eval (tl p) else l.eval (tl p))

/-- Pointwise comparison of the functions two event trees encode. -/
def pointwiseLe (e1 e2 : Event) : Prop :=
  ∀ p, e1.eval p ≤ e2.eval p

/-! Basic lemmas about points and evaluation. -/

theorem tl_pcons (b : Bool) (p : Nat → Bool) : tl (pcons b p) = p := by
  funext i
  rfl

theorem Event.eval_pcons (n : Nat) (l r : Event) (b : Bool) (p : Nat → Bool) :
    (Event.Split n l r).eval (pcons b p) = n + (if b then r.eval p else l.eval p) := by
  simp only [Event.eval, tl_pcons]
  rfl

theorem Event.eval_lift (e : Event) (m : Nat) (p : Nat → Bool) :
    (e.lift m).eval p = e.eval p + m := by
  cases e
  all_goals simp [Event.lift, Event.eval]
  all_goals try omega

theorem Event.normalb_lift (e : Event) (m : Nat) : (e.lift m).normalb = e.normalb := by
  cases e <;> rfl

theorem Event.min_le_eval (e : Event) (p : Nat → Bool) : e.min ≤ e.eval p := by
  induction e generalizing p with
  | N n => exact Nat.le_refl n
  | Split n l r ihl ihr =>
    have hl := ihl (tl p)
    have hr := ihr (tl p)
    have h1 := Nat.min_le_left l.min r.min
    have h2 := Nat.min_le_right l.min r.min
    simp only [Event.min, Event.eval]
    cases h : p 0 <;> simp [h] <;> omega

theorem Event.exists_eval_min (e : Event) : ∃ p, e.eval p = e.min := by
  induction e with
  | N n => exact ⟨fun _ => false, rfl⟩
  | Split n l r ihl ihr =>
    obtain ⟨pl, hpl⟩ := ihl
    obtain ⟨pr, hpr⟩ := ihr
    by_cases h : l.min ≤ r.min
    · refine ⟨pcons false pl, ?_⟩
      rw [Event.eval_pcons]
      simp [Event.min, hpl, Nat.min_eq_left h]
    · refine ⟨pcons true pr, ?_⟩
      rw [Event.eval_pcons]
      simp [Event.min, hpr, Nat.min_eq_right (Nat.le_of_not_le h)]

/-! Lemmas about normal forms. -/

theorem Event.normalb_split (n : Nat) (l r : Event) :
    (Event.Split n l r).normalb = true ↔
      l.normalb = true ∧ r.normalb = true ∧ Nat.min l.min r.min = 0 ∧
        Event.bothEqN l r = false := by
  simp [Event.normalb, Bool.and_eq_true, and_assoc]

theorem Event.normal_min (n : Nat) (l r : Event)
    (h : (Event.Split n l r).normalb = true) : (Event.Split n l r).min = n := by
  rw [Event.normalb_split] at h
  simp [Event.min, h.2.2.1]

theorem Event.bothEqN_true (l r : Event) (h : Event.bothEqN l r = true) :
    ∃ a, l = Event.N a ∧ r = Event.N a := by
  cases l <;> cases r <;> simp_all [Event.bothEqN]

/-! Correctness of `sink` and `norm` on trees with normalized children. -/

theorem Event.sink_spec (e : Event) (m : Nat) (hn : e.normalb = true) (hm : m ≤ e.min) :
    ∃ e', e.sink m = some e' ∧ e'.normalb = true ∧ e'.min + m = e.min ∧
      (∀ p, e'.eval p + m = e.eval p) ∧
      (∀ a, e = Event.N a → e' = Event.N (a - m)) ∧
      (∀ b x y, e = Event.Split b x y → ∃ c, e' = Event.Split c x y) := by
  cases e with
  | N a =>
    have ha : m ≤ a := hm
    refine ⟨.N (a - m), by simp [Event.sink, ha], rfl, ?_, ?_, ?_, ?_⟩
    · simp only [Event.min]
      omega
    · intro p
      simp only [Event.eval]
      omega
    · intro a' h
      injection h with h
      subst h
      rfl
    · intro b x y h
      exact absurd h (by simp)
  | Split b x y =>
    have h0 : Nat.min x.min y.min = 0 := ((Event.normalb_split b x y).mp hn).2.2.1
    have hb : m ≤ b := by
      have : (Event.Split b x y).min = b + Nat.min x.min y.min := rfl
      omega
    refine ⟨.Split (b - m) x y, by simp [Event.sink, hb], ?_, ?_, ?_, ?_, ?_⟩
    · rw [Event.normalb_split] at hn ⊢
      exact hn
    · simp only [Event.min]
      omega
    · intro p
      simp only [Event.eval]
      omega
    · intro a h
      exact absurd h (by simp)
    · intro b' x' y' h
      injection h with h1 h2 h3
      subst h2
      subst h3
      exact ⟨b - m, rfl⟩

theorem Event.normSink_spec (n : Nat) (l r : Event)
    (hl : l.normalb = true) (hr : r.normalb = true)
    (hne : Event.bothEqN l r = false) :
    ∃ e', Event.normSink n l r = some e' ∧ e'.normalb = true ∧
      ∀ p, e'.eval p = (Event.Split n l r).eval p := by
  have hml : Nat.min l.min r.min ≤ l.min := Nat.min_le_left _ _
  have hmr : Nat.min l.min r.min ≤ r.min := Nat.min_le_right _ _
  obtain ⟨l', hl1, hl2, hl3, hl4, hl5, hl6⟩ := Event.sink_spec l (Nat.min l.min r.min) hl hml
  obtain ⟨r', hr1, hr2, hr3, hr4, hr5, hr6⟩ := Event.sink_spec r (Nat.min l.min r.min) hr hmr
  refine ⟨.Split (n + Nat.min l.min r.min) l' r', ?_, ?_, ?_⟩
  · simp [Event.normSink, hl1, hr1]
  · rw [Event.normalb_split]
    refine ⟨hl2, hr2, ?_, ?_⟩
    · rcases Nat.le_total l.min r.min with hc | hc
      · have hm0 : Nat.min l.min r.min = l.min := Nat.min_eq_left hc
        have hz : l'.min = 0 := by omega
        simp [hz]
      · have hm0 : Nat.min l.min r.min = r.min := Nat.min_eq_right hc
        have hz : r'.min = 0 := by omega
        simp [hz]
    cases l with
    | N a =>
      cases r with
      | N b =>
        have hab : ¬a = b := by simpa [Event.bothEqN] using hne
        have hl' := hl5 a rfl
        have hr' := hr5 b rfl
        subst hl'
        subst hr'
        simp only [Event.bothEqN, decide_eq_false_iff_not, Event.min] at hml hmr ⊢
        omega
      | Split b u v =>
        obtain ⟨c, hc⟩ := hr6 b u v rfl
        subst hc
        cases l' <;> simp [Event.bothEqN]
    | Split a u v =>
      obtain ⟨c, hc⟩ := hl6 a u v rfl
      subst hc
      simp [Event.bothEqN]
  · intro p
    have h4l := hl4 (tl p)
    have h4r := hr4 (tl p)
    simp only [Event.eval]
    cases h : p 0 <;> simp [h] <;> omega

theorem Event.norm_eq_normSink (n : Nat) (l r : Event)
    (hne : Event.bothEqN l r = false) :
    (Event.Split n l r).norm = Event.normSink n l r := by
  cases l <;> cases r <;> simp_all [Event.norm, Event.bothEqN]

theorem Event.norm_spec (n : Nat) (l r : Event)
    (hl : l.normalb = true) (hr : r.normalb = true) :
    ∃ e', (Event.Split n l r).norm = some e' ∧ e'.normalb = true ∧
      ∀ p, e'.eval p = (Event.Split n l r).eval p := by
  cases hb : Event.bothEqN l r with
  | true =>
    obtain ⟨a, hla, hra⟩ := Event.bothEqN_true l r hb
    subst hla
    subst hra
    refine ⟨.N (n + a), by simp [Event.norm], rfl, ?_⟩
    intro p
    cases h : p 0 <;> simp [Event.eval, h]
  | false =>
    rw [Event.norm_eq_normSink n l r hb]
    exact Event.normSink_spec n l r hl hr hb

theorem Event.join_spec :
    ∀ e1 e2 : Event, e1.normalb = true → e2.normalb = true →
      ∃ e3, e1.join e2 = some e3 ∧ e3.normalb = true ∧
        ∀ p, e3.eval p = Nat.max (e1.eval p) (e2.eval p) := by
  intro e1 e2
  induction e1, e2 using Event.join.induct with
  | case1 n1 n2 =>
    intro _ _
    refine ⟨.N (if n1 > n2 then n1 else n2), by simp [Event.join], rfl, ?_⟩
    intro p
    simp only [Event.eval, Nat.max_def]
    split <;> split <;> omega
  | case2 n1 n2 l2 r2 hgt nd ih1 ih2 =>
    have hnd : nd = if n1 > n2 then n1 - n2 else n2 - n1 := by simp [hgt]
    intro h1 h2
    rw [Event.normalb_split] at h2
    obtain ⟨cl, hcl, hcln, hcle⟩ := ih1 h2.1 rfl
    obtain ⟨cr, hcr, hcrn, hcre⟩ := ih2 h2.2.1 rfl
    obtain ⟨e3, hn3, hn3n, hn3e⟩ := Event.norm_spec n2 cl cr hcln hcrn
    refine ⟨e3, ?_, hn3n, ?_⟩
    · simp [Event.join, hgt, hcl, hcr, hn3]
    · intro p
      have he := hn3e p
      have hcl' := hcle (tl p)
      have hcr' := hcre (tl p)
      simp only [Event.eval, Event.eval_lift] at he hcl' hcr' ⊢
      simp only [Nat.max_def] at hcl' hcr' ⊢
      cases h0 : p 0 <;> simp only [h0] at he ⊢ <;>
        simp only [Bool.false_eq_true, if_false, if_true] at he ⊢ <;>
        split at hcl' <;> split at hcr' <;> split <;> omega
  | case3 n1 n2 l2 r2 hgt nd ih1 ih2 =>
    have hnd : nd = if n1 > n2 then n1 - n2 else n2 - n1 := by simp [hgt]
    intro h1 h2
    rw [Event.normalb_split] at h2
    obtain ⟨cl, hcl, hcln, hcle⟩ := ih1 rfl (by rw [Event.normalb_lift]; exact h2.1)
    obtain ⟨cr, hcr, hcrn, hcre⟩ := ih2 rfl (by rw [Event.normalb_lift]; exact h2.2.1)
    obtain ⟨e3, hn3, hn3n, hn3e⟩ := Event.norm_spec n1 cl cr hcln hcrn
    refine ⟨e3, ?_, hn3n, ?_⟩
    · simp [Event.join, hgt, hcl, hcr, hn3]
    · intro p
      have he := hn3e p
      have hcl' := hcle (tl p)
      have hcr' := hcre (tl p)
      simp only [Event.eval, Event.eval_lift] at he hcl' hcr' ⊢
      simp only [Nat.max_def] at hcl' hcr' ⊢
      cases h0 : p 0 <;> simp only [h0] at he ⊢ <;>
        simp only [Bool.false_eq_true, if_false, if_true] at he ⊢ <;>
        split at hcl' <;> split at hcr' <;> split <;> omega
  | case4 n1 l1 r1 n2 hgt nd ih1 ih2 =>
    have hnd : nd = if n1 > n2 then n1 - n2 else n2 - n1 := by simp [hgt]
    intro h1 h2
    rw [Event.normalb_split] at h1
    obtain ⟨cl, hcl, hcln, hcle⟩ := ih1 rfl (by rw [Event.normalb_lift]; exact h1.1)
    obtain ⟨cr, hcr, hcrn, hcre⟩ := ih2 rfl (by rw [Event.normalb_lift]; exact h1.2.1)
    obtain ⟨e3, hn3, hn3n, hn3e⟩ := Event.norm_spec n2 cl cr hcln hcrn
    refine ⟨e3, ?_, hn3n, ?_⟩
    · simp [Event.join, hgt, hcl, hcr, hn3]
    · intro p
      have he := hn3e p
      have hcl' := hcle (tl p)
      have hcr' := hcre (tl p)
      simp only [Event.eval, Event.eval_lift] at he hcl' hcr' ⊢
      simp only [Nat.max_def] at hcl' hcr' ⊢
      cases h0 : p 0 <;> simp only [h0] at he ⊢ <;>
        simp only [Bool.false_eq_true, if_false, if_true] at he ⊢ <;>
        split at hcl' <;> split at hcr' <;> split <;> omega
  | case5 n1 l1 r1 n2 hgt nd ih1 ih2 =>
    have hnd : nd = if n1 > n2 then n1 - n2 else n2 - n1 := by simp [hgt]
    intro h1 h2
    rw [Event.normalb_split] at h1
    obtain ⟨cl, hcl, hcln, hcle⟩ := ih1 h1.1 rfl
    obtain ⟨cr, hcr, hcrn, hcre⟩ := ih2 h1.2.1 rfl
    obtain ⟨e3, hn3, hn3n, hn3e⟩ := Event.norm_spec n1 cl cr hcln hcrn
    refine ⟨e3, ?_, hn3n, ?_⟩
    · simp [Event.join, hgt, hcl, hcr, hn3]
    · intro p
      have he := hn3e p
      have hcl' := hcle (tl p)
      have hcr' := hcre (tl p)
      simp only [Event.eval, Event.eval_lift] at he hcl' hcr' ⊢
      simp only [Nat.max_def] at hcl' hcr' ⊢
      cases h0 : p 0 <;> simp only [h0] at he ⊢ <;>
        simp only [Bool.false_eq_true, if_false, if_true] at he ⊢ <;>
        split at hcl' <;> split at hcr' <;> split <;> omega
  | case6 n1 l1 r1 n2 l2 r2 hgt nd ih1 ih2 =>
    have hnd : nd = if n1 > n2 then n1 - n2 else n2 - n1 := by simp [hgt]
    intro h1 h2
    rw [Event.normalb_split] at h1 h2
    obtain ⟨cl, hcl, hcln, hcle⟩ := ih1 h2.1 (by rw [Event.normalb_lift]; exact h1.1)
    obtain ⟨cr, hcr, hcrn, hcre⟩ := ih2 h2.2.1 (by rw [Event.normalb_lift]; exact h1.2.1)
    obtain ⟨e3, hn3, hn3n, hn3e⟩ := Event.norm_spec n2 cl cr hcln hcrn
    refine ⟨e3, ?_, hn3n, ?_⟩
    · simp [Event.join, hgt, hcl, hcr, hn3]
    · intro p
      have he := hn3e p
      have hcl' := hcle (tl p)
      have hcr' := hcre (tl p)
      simp only [Event.eval, Event.eval_lift] at he hcl' hcr' ⊢
      simp only [Nat.max_def] at hcl' hcr' ⊢
      cases h0 : p 0 <;> simp only [h0] at he ⊢ <;>
        simp only [Bool.false_eq_true, if_false, if_true] at he ⊢ <;>
        split at hcl' <;> split at hcr' <;> split <;> omega
  | case7 n1 l1 r1 n2 l2 r2 hgt nd ih1 ih2 =>
    have hnd : nd = if n1 > n2 then n1 - n2 else n2 - n1 := by simp [hgt]
    intro h1 h2
    rw [Event.normalb_split] at h1 h2
    obtain ⟨cl, hcl, hcln, hcle⟩ := ih1 h1.1 (by rw [Event.normalb_lift]; exact h2.1)
    obtain ⟨cr, hcr, hcrn, hcre⟩ := ih2 h1.2.1 (by rw [Event.normalb_lift]; exact h2.2.1)
    obtain ⟨e3, hn3, hn3n, hn3e⟩ := Event.norm_spec n1 cl cr hcln hcrn
    refine ⟨e3, ?_, hn3n, ?_⟩
    · simp [Event.join, hgt, hcl, hcr, hn3]
    · intro p
      have he := hn3e p
      have hcl' := hcle (tl p)
      have hcr' := hcre (tl p)
      simp only [Event.eval, Event.eval_lift] at he hcl' hcr' ⊢
      simp only [Nat.max_def] at hcl' hcr' ⊢
      cases h0 : p 0 <;> simp only [h0] at he ⊢ <;>
        simp only [Bool.false_eq_true, if_false, if_true] at he ⊢ <;>
        split at hcl' <;> split at hcr' <;> split <;> omega

theorem Event.nonconstant (e : Event) (hn : e.normalb = true) (hne : ∀ a, e ≠ Event.N a) :
    ∃ p q, e.eval p ≠ e.eval q := by
  induction e with
  | N a => exact absurd rfl (hne a)
  | Split n l r ihl ihr =>
    obtain ⟨hl, hr, hmin, hb⟩ := (Event.normalb_split n l r).mp hn
    cases l with
    | N a =>
      cases r with
      | N b =>
        have hab : ¬a = b := by simpa [Event.bothEqN] using hb
        refine ⟨pcons false (fun _ => false), pcons true (fun _ => false), ?_⟩
        simp [Event.eval_pcons, Event.eval, pcons]
        omega
      | Split m u v =>
        obtain ⟨p, q, hpq⟩ := ihr hr (by intro a h; cases h)
        refine ⟨pcons true p, pcons true q, ?_⟩
        simp [Event.eval_pcons]
        omega
    | Split m u v =>
      obtain ⟨p, q, hpq⟩ := ihl hl (by intro a h; cases h)
      refine ⟨pcons false p, pcons false q, ?_⟩
      simp [Event.eval_pcons]
      omega

theorem Event.eval_canonical :
    ∀ e1 e2 : Event, e1.normalb = true → e2.normalb = true →
      (∀ p, e1.eval p = e2.eval p) → e1 = e2 := by
  intro e1
  induction e1 with
  | N a =>
    intro e2 h1 h2 hev
    cases e2 with
    | N b =>
      have := hev (fun _ => false)
      simp only [Event.eval] at this
      rw [this]
    | Split m l r =>
      exfalso
      obtain ⟨p, q, hpq⟩ := Event.nonconstant _ h2 (by intro a h; cases h)
      apply hpq
      rw [← hev p, ← hev q]
      rfl
  | Split n l r ihl ihr =>
    intro e2 h1 h2 hev
    cases e2 with
    | N b =>
      exfalso
      obtain ⟨p, q, hpq⟩ := Event.nonconstant _ h1 (by intro a h; cases h)
      apply hpq
      rw [hev p, hev q]
      rfl
    | Split n' l' r' =>
      have hmin : (Event.Split n l r).min = (Event.Split n' l' r').min := by
        obtain ⟨p1, hp1⟩ := Event.exists_eval_min (Event.Split n l r)
        obtain ⟨p2, hp2⟩ := Event.exists_eval_min (Event.Split n' l' r')
        have a1 := Event.min_le_eval (Event.Split n' l' r') p1
        have a2 := Event.min_le_eval (Event.Split n l r) p2
        have b1 := hev p1
        have b2 := hev p2
        omega
      have hn' : n = n' := by
        have b1 := Event.normal_min n l r h1
        have b2 := Event.normal_min n' l' r' h2
        omega
      subst hn'
      obtain ⟨hl, hr, _, _⟩ := (Event.normalb_split n l r).mp h1
      obtain ⟨hl', hr', _, _⟩ := (Event.normalb_split n l' r').mp h2
      have hL : ∀ q, l.eval q = l'.eval q := by
        intro q
        have := hev (pcons false q)
        simp only [Event.eval_pcons] at this
        simp at this
        omega
      have hR : ∀ q, r.eval q = r'.eval q := by
        intro q
        have := hev (pcons true q)
        simp only [Event.eval_pcons] at this
        simp at this
        omega
      rw [ihl l' hl hl' hL, ihr r' hr hr' hR]

theorem Event.join_idem (e : Event) (hn : e.normalb = true) : e.join e = some e := by
  obtain ⟨e3, h, hn3, hev⟩ := Event.join_spec e e hn hn
  have : e3 = e := by
    apply Event.eval_canonical e3 e hn3 hn
    intro p
    rw [hev p]
    simp
  rw [h, this]

theorem Event.join_comm (e1 e2 : Event) (h1 : e1.normalb = true) (h2 : e2.normalb = true) :
    e1.join e2 = e2.join e1 := by
  obtain ⟨a, ha, han, hae⟩ := Event.join_spec e1 e2 h1 h2
  obtain ⟨b, hb, hbn, hbe⟩ := Event.join_spec e2 e1 h2 h1
  have : a = b := by
    apply Event.eval_canonical a b han hbn
    intro p
    rw [hae p, hbe p]
    exact Nat.max_comm _ _
  rw [ha, hb, this]

theorem Event.join_assoc (e1 e2 e3 : Event)
    (h1 : e1.normalb = true) (h2 : e2.normalb = true) (h3 : e3.normalb = true) :
    (e1.join e2).bind (fun x => x.join e3) = (e2.join e3).bind (fun x => e1.join x) := by
  obtain ⟨a, ha, han, hae⟩ := Event.join_spec e1 e2 h1 h2
  obtain ⟨b, hb, hbn, hbe⟩ := Event.join_spec e2 e3 h2 h3
  obtain ⟨c, hc, hcn, hce⟩ := Event.join_spec a e3 han h3
  obtain ⟨d, hd, hdn, hde⟩ := Event.join_spec e1 b h1 hbn
  have : c = d := by
    apply Event.eval_canonical c d hcn hdn
    intro p
    rw [hce p, hde p, hae p, hbe p]
    exact Nat.max_assoc _ _ _
  rw [ha, hb]
  show a.join e3 = e1.join b
  rw [hc, hd, this]

theorem Event.leq_sound : ∀ e1 e2 : Event, Event.leq e1 e2 = true → pointwiseLe e1 e2 := by
  intro e1 e2
  induction e1, e2 using Event.leq.induct with
  | case1 n1 n2 =>
    intro h p
    simp only [Event.leq, decide_eq_true_eq] at h
    simpa [Event.eval] using h
  | case2 n1 n2 l2 r2 =>
    intro h p
    simp only [Event.leq, decide_eq_true_eq] at h
    simp only [Event.eval]
    omega
  | case3 n1 l1 r1 n2 ih1 ih2 =>
    intro h p
    simp only [Event.leq, Bool.and_eq_true, decide_eq_true_eq] at h
    obtain ⟨⟨ha, hb⟩, hc⟩ := h
    have hl := ih1 hb (tl p)
    have hr := ih2 hc (tl p)
    simp only [Event.eval_lift, Event.eval] at hl hr ⊢
    cases h0 : p 0 <;> simp [h0] <;> omega
  | case4 n1 l1 r1 n2 l2 r2 ih1 ih2 =>
    intro h p
    simp only [Event.leq, Bool.and_eq_true, decide_eq_true_eq] at h
    obtain ⟨⟨ha, hb⟩, hc⟩ := h
    have hl := ih1 hb (tl p)
    have hr := ih2 hc (tl p)
    simp only [Event.eval_lift, Event.eval] at hl hr ⊢
    cases h0 : p 0 <;> simp [h0] <;> omega

theorem Event.leq_complete :
    ∀ e1 e2 : Event, e2.normalb = true → pointwiseLe e1 e2 → Event.leq e1 e2 = true := by
  intro e1 e2
  induction e1, e2 using Event.leq.induct with
  | case1 n1 n2 =>
    intro _ h
    have := h (fun _ => false)
    simpa [Event.leq, Event.eval] using this
  | case2 n1 n2 l2 r2 =>
    intro hn h
    obtain ⟨p2, hp2⟩ := Event.exists_eval_min (Event.Split n2 l2 r2)
    have hmin := Event.normal_min n2 l2 r2 hn
    have h2 := h p2
    rw [hmin] at hp2
    simp only [Event.eval] at h2 hp2
    simp only [Event.leq, decide_eq_true_eq]
    omega
  | case3 n1 l1 r1 n2 ih1 ih2 =>
    intro hn h
    have hbase : n1 ≤ n2 := by
      have := h (fun _ => false)
      simp only [Event.eval] at this
      omega
    have hl : Event.leq (l1.lift n1) (.N n2) = true := by
      apply ih1 rfl
      intro q
      have := h (pcons false q)
      rw [Event.eval_pcons] at this
      simp only [Bool.false_eq_true, if_false] at this
      simp only [Event.eval_lift, Event.eval] at this ⊢
      omega
    have hr : Event.leq (r1.lift n1) (.N n2) = true := by
      apply ih2 rfl
      intro q
      have := h (pcons true q)
      rw [Event.eval_pcons] at this
      simp only [if_true] at this
      simp only [Event.eval_lift, Event.eval] at this ⊢
      omega
    simp [Event.leq, hbase, hl, hr]
  | case4 n1 l1 r1 n2 l2 r2 ih1 ih2 =>
    intro hn h
    obtain ⟨hln, hrn, _, _⟩ := (Event.normalb_split n2 l2 r2).mp hn
    have hbase : n1 ≤ n2 := by
      obtain ⟨p2, hp2⟩ := Event.exists_eval_min (Event.Split n2 l2 r2)
      have hmin := Event.normal_min n2 l2 r2 hn
      have h2 := h p2
      rw [hmin] at hp2
      simp only [Event.eval] at h2 hp2
      omega
    have hl : Event.leq (l1.lift n1) (l2.lift n2) = true := by
      apply ih1 (by rw [Event.normalb_lift]; exact hln)
      intro q
      have := h (pcons false q)
      rw [Event.eval_pcons, Event.eval_pcons] at this
      simp only [Bool.false_eq_true, if_false] at this
      simp only [Event.eval_lift]
      omega
    have hr : Event.leq (r1.lift n1) (r2.lift n2) = true := by
      apply ih2 (by rw [Event.normalb_lift]; exact hrn)
      intro q
      have := h (pcons true q)
      rw [Event.eval_pcons, Event.eval_pcons] at this
      simp only [if_true] at this
      simp only [Event.eval_lift]
      omega
    simp [Event.leq, hbase, hl, hr]

theorem Event.leq_refl_aux : ∀ e1 e2 : Event, e1 = e2 → Event.leq e1 e2 = true := by
  intro e1 e2
  induction e1, e2 using Event.leq.induct with
  | case1 n1 n2 =>
    intro h
    injection h with h
    subst h
    simp [Event.leq]
  | case2 n1 n2 l2 r2 =>
    intro h
    exact absurd h (by simp)
  | case3 n1 l1 r1 n2 ih1 ih2 =>
    intro h
    exact absurd h (by simp)
  | case4 n1 l1 r1 n2 l2 r2 ih1 ih2 =>
    intro h
    injection h with h1 h2 h3
    subst h1
    subst h2
    subst h3
    simp [Event.leq, ih1 rfl, ih2 rfl]

theorem Event.leq_refl (e : Event) : Event.leq e e = true :=
  Event.leq_refl_aux e e rfl

/-! Lemmas about identity trees. -/

theorem Id.normalb_split_iff (l r : Id) :
    (Id.Split l r).normalb = true ↔
      l.normalb = true ∧ r.normalb = true ∧ ¬(l = Id.Empty ∧ r = Id.Empty) ∧
        ¬(l = Id.Full ∧ r = Id.Full) := by
  simp [Id.normalb, Bool.and_eq_true, and_assoc, not_and]
  tauto

theorem Id.sum_empty_right (i : Id) : Id.sum i .Empty = some i := by
  cases i <;> rfl

theorem Id.sum_empty_left (i : Id) : Id.sum .Empty i = some i := by
  cases i <;> rfl

theorem Id.norm_id (l r : Id) (h1 : ¬(l = Id.Empty ∧ r = Id.Empty))
    (h2 : ¬(l = Id.Full ∧ r = Id.Full)) : (Id.Split l r).norm = Id.Split l r := by
  cases l <;> cases r <;> simp_all [Id.norm]

theorem Id.sum_split (i : Id) (h : i.normalb = true) :
    Id.sum (i.split).1 (i.split).2 = some i := by
  induction i with
  | Empty => rfl
  | Full => rfl
  | Split l r ihl ihr =>
    obtain ⟨hln, hrn, hEE, hFF⟩ := (Id.normalb_split_iff l r).mp h
    by_cases hl : l = Id.Empty
    · subst hl
      have hr : ¬r = Id.Empty := fun hh => hEE ⟨rfl, hh⟩
      simp only [Id.split, if_pos rfl]
      simp only [Id.sum, Id.sum_empty_left, ihr hrn, Option.bind_eq_bind]
      simp only [Option.some_bind]
      rw [Id.norm_id Id.Empty r (fun hh => hr hh.2) (fun hh => by cases hh.1)]
    · by_cases hr : r = Id.Empty
      · subst hr
        simp only [Id.split, if_neg hl, if_pos rfl]
        simp only [Id.sum, Id.sum_empty_right, ihl hln, Option.bind_eq_bind]
        simp only [Option.some_bind]
        rw [Id.norm_id l Id.Empty (fun hh => hl hh.1) (fun hh => by cases hh.2)]
      · simp only [Id.split, if_neg hl, if_neg hr]
        simp only [Id.sum, Id.sum_empty_right, Id.sum_empty_left, Option.bind_eq_bind]
        simp only [Option.some_bind]
        rw [Id.norm_id l r (fun hh => hl hh.1) hFF]

/-! The claim theorems. -/

/-- C1 counterexample: Stamp join is not defined for every pair of Stamps —
joining the seed with itself hits the `unreachable!` arm of `Id::sum` — and
`join(x,x) == x` fails componentwise on a stamp whose event tree is not in
normal form. -/
theorem C1_counterexample :
    Stamp.join Stamp.seed Stamp.seed = none ∧
      Stamp.join ⟨Id.Empty, Event.Split 0 (.N 1) (.N 1)⟩ ⟨Id.Empty, Event.Split 0 (.N 1) (.N 1)⟩
        = some ⟨Id.Empty, Event.N 1⟩ ∧
      (Event.N 1 : Event) ≠ Event.Split 0 (.N 1) (.N 1) := by
  refine ⟨rfl, ?_, by decide⟩
  simp [Stamp.join, Id.sum, Event.join, Event.norm, Event.lift]

/-- C1 (amended): on event trees in normal form — the representation invariant
the library's `norm` maintains — `Event::join` is total (the join of any two
normalized trees is defined: the first conjunct, for arbitrary normalized `e1`
and `e2`), idempotent, commutative, and associative; `Stamp::join` remains
undefined on overlapping ids, as §7 of the spec requires. -/
theorem C1_event_join_semilattice (e1 e2 e3 : Event) (h1 : e1.normalb = true)
    (h2 : e2.normalb = true) (h3 : e3.normalb = true) :
    (e1.join e2).isSome = true ∧ e1.join e1 = some e1 ∧ e1.join e2 = e2.join e1 ∧
      (e1.join e2).bind (fun x => x.join e3) = (e2.join e3).bind (fun x => e1.join x) := by
  refine ⟨?_, Event.join_idem e1 h1, Event.join_comm e1 e2 h1 h2,
    Event.join_assoc e1 e2 e3 h1 h2 h3⟩
  obtain ⟨e, he, -, -⟩ := Event.join_spec e1 e2 h1 h2
  simp [he]

/-- C1 witness: totality and the semilattice laws evaluated at concrete
normalized trees. -/
theorem C1_witness :
    ((Event.Split 0 (.N 0) (.N 1)).join (Event.N 2)).isSome = true ∧
      (Event.Split 0 (.N 0) (.N 1)).join (Event.Split 0 (.N 0) (.N 1))
        = some (Event.Split 0 (.N 0) (.N 1)) ∧
      (Event.Split 0 (.N 0) (.N 1)).join (Event.N 2) = (Event.N 2).join (Event.Split 0 (.N 0) (.N 1)) ∧
      ((Event.Split 0 (.N 0) (.N 1)).join (Event.N 2)).bind (fun x => x.join (Event.N 0)) =
        ((Event.N 2).join (Event.N 0)).bind (fun x => (Event.Split 0 (.N 0) (.N 1)).join x) :=
  C1_event_join_semilattice (Event.Split 0 (.N 0) (.N 1)) (.N 2) (.N 0)
    (by decide) (by decide) (by decide)

/-- C2: the code violates the claim — `event` of the seed stamp is the seed
unchanged, because the branch keeps the *unchanged* tree when `fill` made no
simplification (`filled == self.event`) instead of growing it, so neither
strict advance nor inequality holds at `s = seed` although `s.id = Full`. -/
theorem C2_event_seed_unchanged :
    Stamp.seed.id ≠ Id.Empty ∧ Stamp.event' Stamp.seed = some Stamp.seed := by
  decide

/-- C3 counterexample: `leq` is not pointwise ≤ for all trees: `N 3` is
pointwise below the non-normalized tree `Split(0, N 5, N 5)` (which is the
constant function 5), yet `leq` compares `3 ≤ 0` and returns `false`. -/
theorem C3_counterexample :
    pointwiseLe (.N 3) (Event.Split 0 (.N 5) (.N 5)) ∧
      Event.leq (.N 3) (Event.Split 0 (.N 5) (.N 5)) = false := by
  constructor
  · intro p
    simp only [Event.eval]
    cases h : p 0 <;> simp [h]
  · simp [Event.leq]

/-- C3 (amended): `leq e1 e2 = true` implies pointwise ≤ for all trees; when
`e2` is in normal form (`leq` is specified over normalized trees) `leq`
decides pointwise ≤ exactly; and `leq(N a, Split(b,l,r))` is `a ≤ b` by
definition. -/
theorem C3_leq_pointwise :
    (∀ e1 e2 : Event, Event.leq e1 e2 = true → pointwiseLe e1 e2) ∧
      (∀ e1 e2 : Event, e2.normalb = true → (Event.leq e1 e2 = true ↔ pointwiseLe e1 e2)) ∧
      (∀ (a b : Nat) (l r : Event), Event.leq (.N a) (.Split b l r) = decide (a ≤ b)) := by
  refine ⟨Event.leq_sound, ?_, ?_⟩
  · intro e1 e2 hn
    exact ⟨fun h => Event.leq_sound e1 e2 h, fun h => Event.leq_complete e1 e2 hn h⟩
  · intro a b l r
    simp [Event.leq]

/-- C3 witness: both directions evaluated at concrete trees. -/
theorem C3_witness :
    pointwiseLe (.N 0) (Event.Split 0 (.N 0) (.N 1)) ∧
      Event.leq (.N 0) (Event.Split 0 (.N 0) (.N 1)) = true := by
  constructor
  · exact C3_leq_pointwise.1 (.N 0) (Event.Split 0 (.N 0) (.N 1)) (by simp [Event.leq])
  · exact (C3_leq_pointwise.2.1 (.N 0) (Event.Split 0 (.N 0) (.N 1)) (by decide)).mpr
      (fun p => Nat.zero_le _)

/-- C4 counterexample: with both ids anonymous the join itself succeeds, but
`receive` fails, because it unconditionally applies `event` (whose assertion
rejects the `Empty` id) instead of skipping the event step. -/
theorem C4_counterexample :
    Stamp.join ⟨Id.Empty, Event.N 0⟩ ⟨Id.Empty, Event.N 0⟩ = some ⟨Id.Empty, Event.N 0⟩ ∧
      IntervalTreeClock.receive ⟨Id.Empty, Event.N 0⟩ ⟨Id.Empty, Event.N 0⟩ = none := by
  constructor
  · simp [Stamp.join, Id.sum, Event.join]
  · simp [IntervalTreeClock.receive, Stamp.join, Id.sum, Event.join, Stamp.event']

/-- C4 (amended): `receive` joins and then *unconditionally* applies `event`:
whenever the join succeeds the result is exactly `event` of the joined stamp —
also when the local id was anonymous — and `receive` fails whenever the joined
id is `Empty` (in particular when both stamps are anonymous). -/
theorem C4_receive_joins_then_events (s incoming j : Stamp)
    (h : Stamp.join s incoming = some j) :
    IntervalTreeClock.receive s incoming = Stamp.event' j ∧
      (j.id = Id.Empty → IntervalTreeClock.receive s incoming = none) := by
  constructor
  · simp [IntervalTreeClock.receive, h]
  · intro hid
    simp [IntervalTreeClock.receive, h, Stamp.event', hid]

/-- C4 witness: receiving an anonymous message on an owning stamp applies the
event step to the joined stamp. -/
theorem C4_witness :
    IntervalTreeClock.receive ⟨Id.Full, Event.N 0⟩ ⟨Id.Empty, Event.N 0⟩
      = Stamp.event' ⟨Id.Full, Event.N 0⟩ :=
  (C4_receive_joins_then_events ⟨Id.Full, Event.N 0⟩ ⟨Id.Empty, Event.N 0⟩ ⟨Id.Full, Event.N 0⟩
    (by simp [Stamp.join, Id.sum, Event.join])).1

/-- C5 counterexample: for a stamp with the (non-normalized) id
`Split(Empty, Empty)` the two forked ids sum to `Empty`, which does not
normalize to the original id. -/
theorem C5_counterexample :
    Id.sum (Stamp.fork ⟨Id.Split .Empty .Empty, Event.N 0⟩).1.id
        (Stamp.fork ⟨Id.Split .Empty .Empty, Event.N 0⟩).2.id = some Id.Empty ∧
      Id.norm Id.Empty ≠ (⟨Id.Split .Empty .Empty, Event.N 0⟩ : Stamp).id := by
  decide

/-- C5 (amended): for any stamp whose id is in normal form, `fork` copies the
event tree into both halves and `Id::sum` of the two forked ids reconstructs
the original id exactly. -/
theorem C5_fork_partitions_id (s : Stamp) (h : s.id.normalb = true) :
    (s.fork).1.event = s.event ∧ (s.fork).2.event = s.event ∧
      Id.sum (s.fork).1.id (s.fork).2.id = some s.id := by
  refine ⟨rfl, rfl, ?_⟩
  simpa [Stamp.fork] using Id.sum_split s.id h

/-- C5 witness: forking the seed. -/
theorem C5_witness :
    (Stamp.seed.fork).1.event = Stamp.seed.event ∧
      (Stamp.seed.fork).2.event = Stamp.seed.event ∧
      Id.sum (Stamp.seed.fork).1.id (Stamp.seed.fork).2.id = some Stamp.seed.id :=
  C5_fork_partitions_id Stamp.seed (by decide)

/-- C6: the code violates the claim — at
`s = (Split(Full, Empty), Split(0, N 0, N 1))`, `event` takes the growth
branch (because `fill` changed the tree — the condition the paper's `event`
uses the other way around) and returns the non-normalized event
`Split(0, N 1, N 1)`; joining the result `s'` with its own peeked snapshot
renormalizes the event to `N 1`, so `join(s', peek s').event ≠ s'.event`. -/
theorem C6_roundtrip_fails :
    Stamp.event' ⟨Id.Split .Full .Empty, Event.Split 0 (.N 0) (.N 1)⟩
        = some ⟨Id.Split .Full .Empty, Event.Split 0 (.N 1) (.N 1)⟩ ∧
      Stamp.join ⟨Id.Split .Full .Empty, Event.Split 0 (.N 1) (.N 1)⟩
          (Stamp.peek ⟨Id.Split .Full .Empty, Event.Split 0 (.N 1) (.N 1)⟩)
        = some ⟨Id.Split .Full .Empty, Event.N 1⟩ ∧
      Event.N 1 ≠ Event.Split 0 (.N 1) (.N 1) := by
  refine ⟨?_, ?_, by decide⟩
  · simp [Stamp.event', fill, grow, Event.norm, Event.normSink, Event.min, Event.max,
      Event.sink, Event.split_from, GREATER_THAN_MAX_TREE_DEPTH]
  · simp [Stamp.join, Stamp.peek, Id.sum, Event.join, Event.norm, Event.lift, Id.norm]

/-- C7 counterexample: `m ≤ min(e)` alone does not prevent underflow: for the
non-normalized `e = Split(0, N 3, N 4)` and `m = 3` we have `m ≤ min(e) = 3`,
yet `sink` subtracts `m` from the base value `0` and underflows. -/
theorem C7_counterexample :
    3 ≤ (Event.Split 0 (.N 3) (.N 4)).min ∧ (Event.Split 0 (.N 3) (.N 4)).sink 3 = none := by
  decide

/-- C7 (amended): the library's only `sink` calls are `Event::norm`'s, with
`m = min(min(left), min(right))`, and that `m` is below both children's
minima; on trees in normal form — which the children of trees the library
normalizes are — `m ≤ min(e)` does rule out underflow, and `norm`'s sinking
calls always succeed. -/
theorem C7_sink_no_underflow :
    (∀ e1 e2 : Event, Nat.min e1.min e2.min ≤ e1.min ∧ Nat.min e1.min e2.min ≤ e2.min) ∧
      (∀ (e : Event) (m : Nat), e.normalb = true → m ≤ e.min → (e.sink m).isSome = true) ∧
      (∀ (n : Nat) (e1 e2 : Event), e1.normalb = true → e2.normalb = true →
        ((Event.Split n e1 e2).norm).isSome = true) := by
  refine ⟨fun e1 e2 => ⟨Nat.min_le_left _ _, Nat.min_le_right _ _⟩, ?_, ?_⟩
  · intro e m hn hm
    obtain ⟨e', he, _⟩ := Event.sink_spec e m hn hm
    simp [he]
  · intro n e1 e2 h1 h2
    obtain ⟨e', he, _⟩ := Event.norm_spec n e1 e2 h1 h2
    simp [he]

/-- C7 witness: a sinking call and a `norm` call on normalized trees succeed. -/
theorem C7_witness :
    ((Event.Split 0 (.N 0) (.N 1)).sink 0).isSome = true ∧
      ((Event.Split 5 (Event.Split 0 (.N 0) (.N 1)) (.N 0)).norm).isSome = true :=
  ⟨C7_sink_no_underflow.2.1 (Event.Split 0 (.N 0) (.N 1)) 0 (by decide) (by decide),
    C7_sink_no_underflow.2.2 5 (Event.Split 0 (.N 0) (.N 1)) (.N 0) (by decide) (by decide)⟩

/-- C8: `event` on a stamp with `Empty` identity fails: the assertion is the
first thing checked, so for every event tree the operation produces no
result. -/
theorem C8_event_empty_id_fails (e : Event) : Stamp.event' ⟨Id.Empty, e⟩ = none := by
  simp [Stamp.event']

/-- C9: the defining equations of `Id::sum`: identity on `Empty` on either
side, normalized structural recursion on `Split`/`Split`, and failure on
every overlapping pairing (`Full`/`Full`, `Full`/`Split`, `Split`/`Full`). -/
theorem C9_sum_equations :
    (∀ x : Id, Id.sum .Empty x = some x ∧ Id.sum x .Empty = some x) ∧
      (∀ l1 r1 l2 r2 : Id, Id.sum (.Split l1 r1) (.Split l2 r2)
          = (Id.sum l1 l2).bind fun l => (Id.sum r1 r2).bind fun r => some ((Id.Split l r).norm)) ∧
      Id.sum .Full .Full = none ∧
      (∀ l r : Id, Id.sum .Full (.Split l r) = none ∧ Id.sum (.Split l r) .Full = none) := by
  refine ⟨fun x => ⟨Id.sum_empty_left x, Id.sum_empty_right x⟩, ?_, rfl, fun l r => ⟨rfl, rfl⟩⟩
  intro l1 r1 l2 r2
  rfl

/-- C10: stamp comparison ignores identity: `Stamp::leq` is exactly
`Event::leq` of the event components, so two stamps with equal event trees —
whatever their ids — compare `Equal` under the clock's `PartialOrd` and equal
under its `PartialEq`. -/
theorem C10_leq_ignores_id (s1 s2 : Stamp) :
    Stamp.leq s1 s2 = Event.leq s1.event s2.event ∧
      (s1.event = s2.event →
        IntervalTreeClock.cmp s1 s2 = some Ordering.eq ∧ IntervalTreeClock.eq s1 s2 = true) := by
  refine ⟨rfl, ?_⟩
  intro h
  have h1 : Stamp.leq s1 s2 = true := by
    simp [Stamp.leq, h, Event.leq_refl]
  have h2 : Stamp.leq s2 s1 = true := by
    simp [Stamp.leq, h, Event.leq_refl]
  constructor
  · simp [IntervalTreeClock.cmp, h1, h2]
  · simp [IntervalTreeClock.eq, h1, h2]

/-- C10 witness: two stamps with different ids but the same event tree compare
equal. -/
theorem C10_witness :
    IntervalTreeClock.cmp ⟨Id.Full, Event.N 0⟩ ⟨Id.Empty, Event.N 0⟩ = some Ordering.eq ∧
      IntervalTreeClock.eq ⟨Id.Full, Event.N 0⟩ ⟨Id.Empty, Event.N 0⟩ = true :=
  (C10_leq_ignores_id ⟨Id.Full, Event.N 0⟩ ⟨Id.Empty, Event.N 0⟩).2 rfl

end ITC
